import Mathlib

/-!
Verification of the iris-mpc three-party replicated secret-sharing core.

The development shallowly embeds the protocol layer of
`iris-mpc-cpu/src/protocol/ops.rs`, the query preprocessing of
`src/dot/share_db.rs`, and the ingestion pipeline exercised by
`iris-mpc-common/tests/smpc_request.rs`.  Rust wrapping arithmetic on
`u16`/`u32` is embedded as `ZMod (2^16)` / `ZMod (2^32)` (the rings
ℤ₂^16 and ℤ₂^32 with explicit reduction mod 2^w).  Interactive protocols
are embedded as synchronous three-party simulations: each definition
takes the three parties' inputs and produces the three parties' outputs,
with the network exchange (send to next, receive from previous) made
explicit in the data flow.

Sub-protocols whose implementation lives outside the embedded sources
(`shares/share.rs`, `protocol/binary.rs`, `protocol/prf.rs`,
`helpers/smpc_request.rs`) are modelled from the specification; each such
definition carries a doc comment starting with `Modelled from the spec:`.
-/

/-- The ring ℤ₂^16, the embedding of Rust `u16` with wrapping arithmetic. -/
abbrev Ring16 := ZMod (2 ^ 16)

/-- The ring ℤ₂^32, the embedding of Rust `u32` with wrapping arithmetic. -/
abbrev Ring32 := ZMod (2 ^ 32)

instance : NeZero (2 ^ 16) := ⟨by decide⟩

instance : NeZero (2 ^ 32) := ⟨by decide⟩

/-- A replicated share held by one party: the pair `(a, b)` of ring
elements (`shares/share.rs`, `Share<T>`). -/
structure Share (R : Type) where
  a : R
  b : R
deriving DecidableEq, Repr

/-- The three parties' views of one replicated sharing: party 0, 1, 2. -/
structure ShareTriple (R : Type) where
  p0 : Share R
  p1 : Share R
  p2 : Share R
deriving DecidableEq, Repr

/-- Consistent replication of a secret `v`: the three a-coordinates sum to
`v` and each party's b-coordinate equals the previous party's
a-coordinate (spec §3, data-model invariant; matches the sharings built
by `create_single_sharing` in the `ops.rs` tests). -/
def Replicates {R : Type} [AddCommMonoid R] (t : ShareTriple R) (v : R) : Prop :=
  t.p0.a + t.p1.a + t.p2.a = v ∧
    t.p0.b = t.p2.a ∧ t.p1.b = t.p0.a ∧ t.p2.b = t.p1.a

instance {R : Type} [AddCommMonoid R] [DecidableEq R] (t : ShareTriple R) (v : R) :
    Decidable (Replicates t v) := by
  unfold Replicates; infer_instance

/-- Opening a replicated sharing: reconstruct the secret as the sum of the
three a-coordinates (each party sends its b-coordinate to the next party,
receives the missing coordinate from the previous party, and computes
`a + b + c`; the reconstructed value is the sum of the three distinct
coordinates, i.e. of the three a-values). -/
def openTriple {R : Type} [AddCommMonoid R] (t : ShareTriple R) : R :=
  t.p0.a + t.p1.a + t.p2.a

/-- The canonical replicated sharing of a known value `v`:
a-coordinates `(v, 0, 0)` with the matching b-coordinates. -/
def shareOfSecret {R : Type} [AddCommMonoid R] (v : R) : ShareTriple R :=
  ⟨⟨v, 0⟩, ⟨0, v⟩, ⟨0, 0⟩⟩

theorem replicates_shareOfSecret {R : Type} [AddCommMonoid R] (v : R) :
    Replicates (shareOfSecret v) v := by
  refine ⟨?_, rfl, rfl, rfl⟩
  simp [shareOfSecret]

theorem openTriple_eq_of_replicates {R : Type} [AddCommMonoid R]
    {t : ShareTriple R} {v : R} (h : Replicates t v) : openTriple t = v := h.1

/-- Modelled from the spec: `add_assign_const_role` (spec §4.2,
"add-public-constant by role"; implementation in `shares/share.rs`, not in
the embedded sources).  Each party calls it with its own role; the
constant is added to the designated a-coordinate (role 0) and to its
replicated copy (the b-coordinate of role 1), so the shared secret gains
`c` and the replication invariant is preserved. -/
def addConstTriple {R : Type} [AddCommMonoid R] (c : R) (t : ShareTriple R) :
    ShareTriple R :=
  ⟨⟨t.p0.a + c, t.p0.b⟩, ⟨t.p1.a, t.p1.b + c⟩, t.p2⟩

theorem replicates_addConstTriple {R : Type} [AddCommMonoid R]
    {t : ShareTriple R} {v : R} (h : Replicates t v) (c : R) :
    Replicates (addConstTriple c t) (v + c) := by
  obtain ⟨hs, h0, h1, h2⟩ := h
  refine ⟨?_, h0, ?_, h2⟩
  · simp only [addConstTriple, ← hs]
    abel
  · simp [addConstTriple, h1]

/-- Modelled from the spec: a party's correlated PRF zero-share
(spec §4.1, `gen_zero_share`; implementation in `protocol/prf.rs`, not in
the embedded sources).  `f` is the keyed PRF stream, `sMine` the party's
own seed, `sPrev` the seed received from the previous party, `k` the call
counter: the zero-share is `PRF(my_seed).next() - PRF(prev_seed).next()`. -/
def genZeroShare {R : Type} [Sub R] (f : Nat → Nat → R) (sMine sPrev : Nat)
    (k : Nat) : R :=
  f sMine k - f sPrev k

/-- Claim C6. After the correlated PRF setup each party holds its own seed
and the previous party's seed (P0: `(s0, s2)`, P1: `(s1, s0)`,
P2: `(s2, s1)`, as checked by `test_async_prf_setup`).  For every PRF
stream and every call counter `k`, the three parties' `gen_zero_share`
outputs sum to 0, in ℤ₂^16 and in ℤ₂^32 alike, each party's zero-share
being `PRF(my_seed).next() - PRF(prev_seed).next()`. -/
theorem gen_zero_share_sums_to_zero
    (f16 : Nat → Nat → Ring16) (f32 : Nat → Nat → Ring32)
    (s0 s1 s2 : Nat) (k : Nat) :
    genZeroShare f16 s0 s2 k + genZeroShare f16 s1 s0 k +
        genZeroShare f16 s2 s1 k = 0 ∧
      genZeroShare f32 s0 s2 k + genZeroShare f32 s1 s0 k +
        genZeroShare f32 s2 s1 k = 0 := by
  constructor <;> · simp only [genZeroShare]; ring

/-- Modelled from the spec: the unsigned lift ℤ₂^16 → ℤ₂^32 (spec §4.3,
`lift<B>` of `protocol/binary.rs`, not in the embedded sources).  The
output is a replicated ℤ₂^32 sharing whose secret, i.e. the sum of the
a-coordinates mod 2^32, equals the input secret's canonical representative
in `[0, 2^16)`; the model emits the canonical such sharing. -/
def liftIdeal (t : ShareTriple Ring16) : ShareTriple Ring32 :=
  shareOfSecret ((openTriple t).val : Ring32)

/-- Modelled from the spec: `mul_lift_2k::<16>` (spec §4.5 step 1,
`protocol/binary.rs`, not in the embedded sources): lift each coordinate
to ℤ₂^32 and multiply by 2^16.  This is a local operation on each
party's coordinates. -/
def mul_lift_2k (s : Share Ring16) : Share Ring32 :=
  ⟨(s.a.val : Ring32) * 2 ^ 16, (s.b.val : Ring32) * 2 ^ 16⟩

/-- Componentwise share subtraction (spec §4.2; `shares/share.rs`). -/
def shareSub {R : Type} [Sub R] (x y : Share R) : Share R :=
  ⟨x.a - y.a, x.b - y.b⟩

/-- Componentwise multiplication of a share by a public scalar
(spec §4.2; `shares/share.rs`). -/
def shareScale {R : Type} [Mul R] (c : R) (x : Share R) : Share R :=
  ⟨c * x.a, c * x.b⟩

/-- The most significant bit of a ℤ₂^32 element, as an element of ℤ₂
(1 exactly when the canonical representative is at least 2^31). -/
def msb32 (v : Ring32) : ZMod 2 :=
  if 2 ^ 31 ≤ v.val then 1 else 0

/-- Modelled from the spec: `single_extract_msb_u32::<32>`
(spec glossary "MSB extraction"; `protocol/binary.rs`, not in the
embedded sources): an interactive protocol producing a replicated binary
sharing of the most significant bit of the shared ℤ₂^32 input; the model
emits the canonical sharing of that bit. -/
def single_extract_msb_u32 (t : ShareTriple Ring32) : ShareTriple (ZMod 2) :=
  shareOfSecret (msb32 (openTriple t))

/-- Modelled from the spec: `open_bin` (spec §4.9 step 4;
`protocol/binary.rs`, not in the embedded sources): open a replicated
binary sharing; the reconstructed bit is the XOR (sum in ℤ₂) of the three
parties' a-coordinates. -/
def open_bin (t : ShareTriple (ZMod 2)) : ZMod 2 :=
  openTriple t

/-- Three-party simulation of `compare_threshold`
(`iris-mpc-cpu/src/protocol/ops.rs` lines 55-70): lift the code dot with
`mul_lift_2k::<16>` into `y`, lift the mask dot with `lift::<16>` into
`x`, compute `x * A - y` componentwise, and extract the MSB of the
result.  `A` is the public threshold constant (`ops.rs` line 17; its
value comes from `MATCH_THRESHOLD_RATIO`, which is declared in
`iris-mpc-common` outside the embedded sources, so it is kept as a
parameter). -/
def compare_threshold (A : Nat) (code_dot mask_dot : ShareTriple Ring16) :
    ShareTriple (ZMod 2) :=
  let y0 := mul_lift_2k code_dot.p0
  let y1 := mul_lift_2k code_dot.p1
  let y2 := mul_lift_2k code_dot.p2
  let l := liftIdeal mask_dot
  let x0 := shareSub (shareScale (A : Ring32) l.p0) y0
  let x1 := shareSub (shareScale (A : Ring32) l.p1) y1
  let x2 := shareSub (shareScale (A : Ring32) l.p2) y2
  single_extract_msb_u32 ⟨x0, x1, x2⟩

/-- The signed interpretation of a `u16` residue: the representative of
`v` in `[-2^15, 2^15)`. -/
def toSigned (v : Ring16) : Int :=
  if v.val < 2 ^ 15 then (v.val : Int) else (v.val : Int) - 2 ^ 16

theorem toSigned_mem (v : Ring16) :
    -(2 ^ 15) ≤ toSigned v ∧ toSigned v < 2 ^ 15 := by
  have hv : v.val < 2 ^ 16 := v.val_lt
  unfold toSigned
  split <;> omega

/-- The sum of the a-coordinates of a replicated ℤ₂^16 sharing of `cd`,
sent through `mul_lift_2k`, is `cd.val * 2^16` in ℤ₂^32. -/
theorem mul_lift_2k_sum (c : ShareTriple Ring16) (cd : Ring16)
    (h : c.p0.a + c.p1.a + c.p2.a = cd) :
    (mul_lift_2k c.p0).a + (mul_lift_2k c.p1).a + (mul_lift_2k c.p2).a
      = (cd.val : Ring32) * 2 ^ 16 := by
  have hval : (c.p0.a.val + c.p1.a.val + c.p2.a.val) % 2 ^ 16 = cd.val := by
    have hv := congrArg ZMod.val h
    rwa [ZMod.val_add, ZMod.val_add, Nat.mod_add_mod] at hv
  have hmodeq :
      (c.p0.a.val + c.p1.a.val + c.p2.a.val) * 2 ^ 16 ≡ cd.val * 2 ^ 16
        [MOD 2 ^ 32] := by
    have h1 : c.p0.a.val + c.p1.a.val + c.p2.a.val ≡ cd.val [MOD 2 ^ 16] := by
      unfold Nat.ModEq
      rw [hval, Nat.mod_eq_of_lt cd.val_lt]
    have h2 := Nat.ModEq.mul_right' (c := 2 ^ 16) h1
    have h3 : (2 : Nat) ^ 16 * 2 ^ 16 = 2 ^ 32 := by norm_num
    rwa [h3] at h2
  have hcast := (ZMod.natCast_eq_natCast_iff _ _ _).mpr hmodeq
  have hexp :
      (((c.p0.a.val + c.p1.a.val + c.p2.a.val) * 2 ^ 16 : Nat) : Ring32)
        = (mul_lift_2k c.p0).a + (mul_lift_2k c.p1).a + (mul_lift_2k c.p2).a := by
    simp only [mul_lift_2k]
    push_cast
    ring
  rw [← hexp, hcast]
  push_cast
  ring

/-- MSB of a wrapped difference of bounded naturals: when
`|M - C| < 2^31`, the most significant bit of `(M - C) mod 2^32` is set
exactly when `M < C`. -/
theorem msb_sub_iff (M C : Nat) (h1 : M < 2 ^ 31 + C) (h2 : C < 2 ^ 31 + M) :
    (2 ^ 31 ≤ ((M : Ring32) - (C : Ring32)).val ↔ M < C) := by
  by_cases hlt : M < C
  · have hsub : (M : Ring32) - (C : Ring32) = -(((C - M : Nat)) : Ring32) := by
      have : (((C - M : Nat)) : Ring32) = (C : Ring32) - M := by
        push_cast [Nat.cast_sub (le_of_lt hlt)]
        ring
      rw [this]
      ring
    have hval : (((C - M : Nat)) : Ring32).val = C - M :=
      ZMod.val_cast_of_lt (by omega)
    have hne : (((C - M : Nat)) : Ring32) ≠ 0 := by
      intro h0
      rw [← ZMod.val_eq_zero, hval] at h0
      omega
    rw [hsub, ZMod.neg_val, if_neg hne, hval]
    constructor
    · intro _; exact hlt
    · intro _; omega
  · have hge : C ≤ M := le_of_not_lt hlt
    have hsub : (M : Ring32) - (C : Ring32) = (((M - C : Nat)) : Ring32) := by
      push_cast [Nat.cast_sub hge]
      ring
    have hval : (((M - C : Nat)) : Ring32).val = M - C :=
      ZMod.val_cast_of_lt (by omega)
    rw [hsub, hval]
    constructor
    · intro h; omega
    · intro h; omega

theorem openTriple_shareOfSecret {R : Type} [AddCommMonoid R] (v : R) :
    openTriple (shareOfSecret v) = v := by
  simp [openTriple, shareOfSecret]

/-- The bit share produced by `compare_threshold`, opened, is the MSB of
`md.val * A - cd.val * 2^16` wrapped in ℤ₂^32. -/
theorem compare_threshold_opened (A : Nat) (c m : ShareTriple Ring16)
    (cd md : Ring16) (hc : c.p0.a + c.p1.a + c.p2.a = cd)
    (hm : m.p0.a + m.p1.a + m.p2.a = md) :
    open_bin (compare_threshold A c m)
      = msb32 (((md.val * A : Nat) : Ring32) - ((cd.val * 2 ^ 16 : Nat) : Ring32)) := by
  unfold compare_threshold open_bin single_extract_msb_u32
  rw [openTriple_shareOfSecret]
  congr 1
  have hlift : liftIdeal m = shareOfSecret ((md.val : Ring32)) := by
    unfold liftIdeal openTriple
    rw [hm]
  have hy := mul_lift_2k_sum c cd hc
  simp only [hlift, openTriple, shareSub, shareScale, shareOfSecret]
  have hsum :
      (A : Ring32) * (md.val : Ring32) - (mul_lift_2k c.p0).a
          + ((A : Ring32) * 0 - (mul_lift_2k c.p1).a)
          + ((A : Ring32) * 0 - (mul_lift_2k c.p2).a)
        = (A : Ring32) * (md.val : Ring32)
          - ((mul_lift_2k c.p0).a + (mul_lift_2k c.p1).a + (mul_lift_2k c.p2).a) := by
    ring
  rw [hsum, hy]
  push_cast
  ring

/-- Claim C1, amended.  For consistent replicated sharings of `code_dot`
and `mask_dot`, under the precondition `A_BITS ≤ B_BITS` (i.e.
`Nat.size A ≤ 16`) **and the additional range precondition that
`mask_dot·A` and `code_dot·B` differ by less than `2^31`** (secrets read
as their unsigned representatives), opening the bit share returned by
`compare_threshold` yields 1 iff `mask_dot·A < code_dot·B` with
`B = 2^16`.  Without the range precondition the claim is false, see the
counterexample. -/
theorem compare_threshold_correct (A : Nat) (_hA : Nat.size A ≤ 16)
    (c m : ShareTriple Ring16) (cd md : Ring16)
    (hc : Replicates c cd) (hm : Replicates m md)
    (h1 : md.val * A < 2 ^ 31 + cd.val * 2 ^ 16)
    (h2 : cd.val * 2 ^ 16 < 2 ^ 31 + md.val * A) :
    open_bin (compare_threshold A c m) = 1 ↔ md.val * A < cd.val * 2 ^ 16 := by
  rw [compare_threshold_opened A c m cd md hc.1 hm.1]
  have hiff := msb_sub_iff (md.val * A) (cd.val * 2 ^ 16) h1 h2
  unfold msb32
  split
  · simp only [true_iff]
    exact hiff.mp (by assumption)
  · constructor
    · intro h0
      exact absurd h0 (by decide)
    · intro hlt
      exact absurd (hiff.mpr hlt) (by assumption)

/-- Claim C1, counterexample to the claim as stated.  With the actual
threshold constant `A = 16384` (which satisfies the claim's precondition
`A_BITS ≤ B_BITS`) and consistently replicated secrets
`code_dot = 32769`, `mask_dot = 0`, the opened bit is 0 although
`mask_dot·A = 0 < code_dot·2^16`: the claimed equivalence fails. -/
theorem compare_threshold_claim_false :
    Nat.size 16384 ≤ 16 ∧
      Replicates (shareOfSecret (32769 : Ring16)) 32769 ∧
      Replicates (shareOfSecret (0 : Ring16)) 0 ∧
      ¬(open_bin (compare_threshold 16384 (shareOfSecret 32769) (shareOfSecret 0)) = 1
          ↔ (0 : Ring16).val * 16384 < (32769 : Ring16).val * 2 ^ 16) := by
  refine ⟨by rw [Nat.size_le]; norm_num, by decide, by decide, ?_⟩
  decide

/-- Witness for the amended C1 theorem at a concrete input: secrets
`code_dot = 2000`, `mask_dot = 1000`, `A = 16384`; the range
preconditions hold and the opened bit equivalence is produced by the
theorem. -/
theorem compare_threshold_correct_witness :
    open_bin (compare_threshold 16384 (shareOfSecret (2000 : Ring16))
        (shareOfSecret (1000 : Ring16))) = 1
      ↔ (1000 : Ring16).val * 16384 < (2000 : Ring16).val * 2 ^ 16 :=
  compare_threshold_correct 16384 (by rw [Nat.size_le]; norm_num)
    (shareOfSecret 2000) (shareOfSecret 1000) 2000 1000
    (replicates_shareOfSecret _) (replicates_shareOfSecret _)
    (by decide) (by decide)

/-- Three-party simulation of the signed lift applied to one element of
the batch in `batch_signed_lift` (`ops.rs` lines 72-88): add `2^15` to
the a-coordinate at the owning role, apply the unsigned `lift::<16>`,
then add `2^32 - 2^15` (i.e. subtract `2^15` mod `2^32`) at the owning
role. -/
def signedLiftTriple (t : ShareTriple Ring16) : ShareTriple Ring32 :=
  addConstTriple (((2 ^ 32 - 2 ^ 15 : Nat) : Ring32))
    (liftIdeal (addConstTriple ((2 ^ 15 : Ring16)) t))

/-- Three-party simulation of `batch_signed_lift` (`ops.rs` lines
72-88): the per-role constant additions and the lift are applied to every
element of the batch. -/
def batch_signed_lift (ts : List (ShareTriple Ring16)) :
    List (ShareTriple Ring32) :=
  ts.map signedLiftTriple

theorem val_add_pow15 (v : Ring16) :
    (v + 2 ^ 15 : Ring16).val = (v.val + 2 ^ 15) % 2 ^ 16 := by
  rw [ZMod.val_add]
  congr 1

theorem signed_lift_secret (v : Ring16) :
    (((v + 2 ^ 15 : Ring16).val : Ring32)) + ((2 ^ 32 - 2 ^ 15 : Nat) : Ring32)
      = ((toSigned v : Int) : Ring32) := by
  have hneg : ((2 ^ 32 - 2 ^ 15 : Nat) : Ring32) = -(2 ^ 15) := by decide
  have hv : v.val < 2 ^ 16 := v.val_lt
  rw [hneg, val_add_pow15]
  unfold toSigned
  by_cases hc : v.val < 2 ^ 15
  · rw [if_pos hc]
    have hmod : (v.val + 2 ^ 15) % 2 ^ 16 = v.val + 2 ^ 15 := by omega
    rw [hmod]
    push_cast
    ring
  · rw [if_neg hc]
    have hmod : (v.val + 2 ^ 15) % 2 ^ 16 = v.val - 2 ^ 15 := by omega
    rw [hmod]
    have hle : (2 : Nat) ^ 15 ≤ v.val := le_of_not_lt hc
    rw [Nat.cast_sub hle]
    push_cast
    ring

/-- The signed lift produces a consistent replicated ℤ₂^32 sharing of the
sign-extended secret. -/
theorem signedLiftTriple_replicates (t : ShareTriple Ring16) (v : Ring16)
    (h : Replicates t v) :
    Replicates (signedLiftTriple t) ((toSigned v : Int) : Ring32) := by
  have h1 := replicates_addConstTriple h ((2 ^ 15 : Ring16))
  have h2 : liftIdeal (addConstTriple (2 ^ 15 : Ring16) t)
      = shareOfSecret (((v + 2 ^ 15 : Ring16).val : Ring32)) := by
    unfold liftIdeal
    rw [openTriple_eq_of_replicates h1]
  unfold signedLiftTriple
  rw [h2]
  have h3 := replicates_addConstTriple
    (replicates_shareOfSecret (((v + 2 ^ 15 : Ring16).val : Ring32)))
    (((2 ^ 32 - 2 ^ 15 : Nat) : Ring32))
  rwa [signed_lift_secret] at h3

/-- Claim C5.  For any u16 value `v` consistently secret-shared into three
replicated shares, `batch_signed_lift` — which adds `2^15` to the
a-coordinate at the owning role, applies the unsigned `lift::<16>`, and
subtracts `2^15` mod `2^32` at the owning role — produces a sharing that
opens to `v` sign-extended to 32 bits iff `v`'s signed interpretation
lies in `[-2^15, 2^15)` (both sides always hold). -/
theorem batch_signed_lift_correct (t : ShareTriple Ring16) (v : Ring16)
    (h : Replicates t v) :
    ∃ u, batch_signed_lift [t] = [u] ∧
      (openTriple u = ((toSigned v : Int) : Ring32) ↔
        (-(2 ^ 15) ≤ toSigned v ∧ toSigned v < 2 ^ 15)) := by
  refine ⟨signedLiftTriple t, rfl, ?_⟩
  have hopen := openTriple_eq_of_replicates (signedLiftTriple_replicates t v h)
  exact iff_of_true hopen (toSigned_mem v)

/-- Witness for C5 at the concrete secret `v = 50000` (signed value
`-15536`), shared canonically. -/
theorem batch_signed_lift_correct_witness :
    ∃ u, batch_signed_lift [shareOfSecret (50000 : Ring16)] = [u] ∧
      (openTriple u = ((toSigned 50000 : Int) : Ring32) ↔
        (-(2 ^ 15) ≤ toSigned 50000 ∧ toSigned (50000 : Ring16) < 2 ^ 15)) :=
  batch_signed_lift_correct (shareOfSecret 50000) 50000
    (replicates_shareOfSecret _)

/-- Modelled from the spec: the replicated-multiplication semi-product
(spec §4.4 step 2: `a_x·a_y + a_x·b_y + b_x·a_y`; the `Mul` impl for
`Share` lives in `shares/share.rs`, not in the embedded sources). -/
def semiMul (x y : Share Ring32) : Ring32 :=
  x.a * y.a + x.a * y.b + x.b * y.a

/-- Summed over the three parties, the semi-products of two consistent
replicated sharings reconstruct the product of the secrets. -/
theorem semiMul_sum (x y : ShareTriple Ring32) (X Y : Ring32)
    (hx : Replicates x X) (hy : Replicates y Y) :
    semiMul x.p0 y.p0 + semiMul x.p1 y.p1 + semiMul x.p2 y.p2 = X * Y := by
  obtain ⟨hxs, hx0, hx1, hx2⟩ := hx
  obtain ⟨hys, hy0, hy1, hy2⟩ := hy
  simp only [semiMul, hx0, hx1, hx2, hy0, hy1, hy2]
  rw [← hxs, ← hys]
  ring

/-- Three-party simulation of `cross_mul_via_lift` (`ops.rs` lines
91-157): push `d1, t2, d2, t1` into a batch, `batch_signed_lift` it,
compute for each of the pairs `(d1', t2')` and `(d2', t1')` the value
`zero_share + semi-product`, send the pair of a-values to the next party
and receive the pair from the previous party, and assemble the two
`Share<u32>` replicated outputs.  `f` and the seeds model each party's
correlated PRF (P0 holds `(s0, s2)`, P1 `(s1, s0)`, P2 `(s2, s1)`); the
two `gen_zero_share` calls of each party consume counters 0 and 1. -/
def cross_mul_via_lift (f : Nat → Nat → Ring32) (s0 s1 s2 : Nat)
    (d1 t1 d2 t2 : ShareTriple Ring16) :
    ShareTriple Ring32 × ShareTriple Ring32 :=
  let l1 := signedLiftTriple d1
  let l2 := signedLiftTriple t2
  let l3 := signedLiftTriple d2
  let l4 := signedLiftTriple t1
  let a00 := genZeroShare f s0 s2 0 + semiMul l1.p0 l2.p0
  let a10 := genZeroShare f s1 s0 0 + semiMul l1.p1 l2.p1
  let a20 := genZeroShare f s2 s1 0 + semiMul l1.p2 l2.p2
  let a01 := genZeroShare f s0 s2 1 + semiMul l3.p0 l4.p0
  let a11 := genZeroShare f s1 s0 1 + semiMul l3.p1 l4.p1
  let a21 := genZeroShare f s2 s1 1 + semiMul l3.p2 l4.p2
  (⟨⟨a00, a20⟩, ⟨a10, a00⟩, ⟨a20, a10⟩⟩, ⟨⟨a01, a21⟩, ⟨a11, a01⟩, ⟨a21, a11⟩⟩)

/-- Claim C4.  For consistent replicated ℤ₂^16 sharings of `d1, t1, d2,
t2`, `cross_mul_via_lift` returns a pair of consistent replicated ℤ₂^32
sharings that open to `(d1·t2, d2·t1)` computed over the true signed
secrets. -/
theorem cross_mul_via_lift_correct (f : Nat → Nat → Ring32) (s0 s1 s2 : Nat)
    (d1 t1 d2 t2 : ShareTriple Ring16) (D1 T1 D2 T2 : Ring16)
    (hd1 : Replicates d1 D1) (ht1 : Replicates t1 T1)
    (hd2 : Replicates d2 D2) (ht2 : Replicates t2 T2) :
    Replicates (cross_mul_via_lift f s0 s1 s2 d1 t1 d2 t2).1
        ((toSigned D1 * toSigned T2 : Int) : Ring32) ∧
      Replicates (cross_mul_via_lift f s0 s1 s2 d1 t1 d2 t2).2
        ((toSigned D2 * toSigned T1 : Int) : Ring32) ∧
      openTriple (cross_mul_via_lift f s0 s1 s2 d1 t1 d2 t2).1
        = ((toSigned D1 * toSigned T2 : Int) : Ring32) ∧
      openTriple (cross_mul_via_lift f s0 s1 s2 d1 t1 d2 t2).2
        = ((toSigned D2 * toSigned T1 : Int) : Ring32) := by
  have hl1 := signedLiftTriple_replicates d1 D1 hd1
  have hl2 := signedLiftTriple_replicates t2 T2 ht2
  have hl3 := signedLiftTriple_replicates d2 D2 hd2
  have hl4 := signedLiftTriple_replicates t1 T1 ht1
  have hsum1 := semiMul_sum _ _ _ _ hl1 hl2
  have hsum2 := semiMul_sum _ _ _ _ hl3 hl4
  have hcast1 : ((toSigned D1 : Int) : Ring32) * ((toSigned T2 : Int) : Ring32)
      = ((toSigned D1 * toSigned T2 : Int) : Ring32) := by push_cast; ring
  have hcast2 : ((toSigned D2 : Int) : Ring32) * ((toSigned T1 : Int) : Ring32)
      = ((toSigned D2 * toSigned T1 : Int) : Ring32) := by push_cast; ring
  have hopen1 :
      (genZeroShare f s0 s2 0 + semiMul (signedLiftTriple d1).p0 (signedLiftTriple t2).p0)
          + (genZeroShare f s1 s0 0 + semiMul (signedLiftTriple d1).p1 (signedLiftTriple t2).p1)
          + (genZeroShare f s2 s1 0 + semiMul (signedLiftTriple d1).p2 (signedLiftTriple t2).p2)
        = ((toSigned D1 * toSigned T2 : Int) : Ring32) := by
    rw [← hcast1, ← hsum1]
    simp only [genZeroShare]
    ring
  have hopen2 :
      (genZeroShare f s0 s2 1 + semiMul (signedLiftTriple d2).p0 (signedLiftTriple t1).p0)
          + (genZeroShare f s1 s0 1 + semiMul (signedLiftTriple d2).p1 (signedLiftTriple t1).p1)
          + (genZeroShare f s2 s1 1 + semiMul (signedLiftTriple d2).p2 (signedLiftTriple t1).p2)
        = ((toSigned D2 * toSigned T1 : Int) : Ring32) := by
    rw [← hcast2, ← hsum2]
    simp only [genZeroShare]
    ring
  refine ⟨⟨hopen1, rfl, rfl, rfl⟩, ⟨hopen2, rfl, rfl, rfl⟩, hopen1, hopen2⟩

/-- Witness for C4 at the secrets `(d1, t1, d2, t2) = (1, 2, 3, 4)` (the
scenario of `test_replicated_cross_mul_lift`): the opened outputs are
`(1·4, 3·2) = (4, 6)`. -/
theorem cross_mul_via_lift_correct_witness :
    openTriple (cross_mul_via_lift (fun _ _ => 0) 5 6 7 (shareOfSecret 1)
        (shareOfSecret 2) (shareOfSecret 3) (shareOfSecret (4 : Ring16))).1
        = (4 : Ring32) ∧
      openTriple (cross_mul_via_lift (fun _ _ => 0) 5 6 7 (shareOfSecret 1)
        (shareOfSecret 2) (shareOfSecret 3) (shareOfSecret (4 : Ring16))).2
        = (6 : Ring32) := by
  have h := cross_mul_via_lift_correct (fun _ _ => 0) 5 6 7
    (shareOfSecret 1) (shareOfSecret 2) (shareOfSecret 3) (shareOfSecret 4)
    1 2 3 4 (replicates_shareOfSecret _) (replicates_shareOfSecret _)
    (replicates_shareOfSecret _) (replicates_shareOfSecret _)
  refine ⟨h.2.2.1.trans ?_, h.2.2.2.trans ?_⟩ <;> decide

/-- Componentwise difference of two replicated sharings (each party
computes `shareSub` locally, as in `let diff = d2t1 - d1t2`). -/
def subTriple {R : Type} [Sub R] (x y : ShareTriple R) : ShareTriple R :=
  ⟨shareSub x.p0 y.p0, shareSub x.p1 y.p1, shareSub x.p2 y.p2⟩

theorem replicates_subTriple {R : Type} [AddCommGroup R]
    {x y : ShareTriple R} {X Y : R} (hx : Replicates x X) (hy : Replicates y Y) :
    Replicates (subTriple x y) (X - Y) := by
  obtain ⟨hxs, hx0, hx1, hx2⟩ := hx
  obtain ⟨hys, hy0, hy1, hy2⟩ := hy
  refine ⟨?_, ?_, ?_, ?_⟩ <;>
    simp only [subTriple, shareSub, hx0, hx1, hx2, hy0, hy1, hy2, ← hxs, ← hys]
  abel

/-- MSB of a wrapped integer: for `z` with `-2^31 ≤ z < 2^31`, the most
significant bit of `z mod 2^32` is set exactly when `z < 0`. -/
theorem msb_intCast_iff (z : Int) (h1 : -(2 ^ 31) ≤ z) (h2 : z < 2 ^ 31) :
    (2 ^ 31 ≤ ((z : Ring32)).val ↔ z < 0) := by
  by_cases hz : z < 0
  · obtain ⟨m, hm⟩ : ∃ m : Nat, z = -(m : Int) := ⟨(-z).toNat, by omega⟩
    subst hm
    have hcast : ((-(m : Int) : Int) : Ring32) = -((m : Nat) : Ring32) := by
      push_cast
      ring
    have hval : ((m : Nat) : Ring32).val = m := ZMod.val_cast_of_lt (by omega)
    have hne : ((m : Nat) : Ring32) ≠ 0 := by
      intro h0
      rw [← ZMod.val_eq_zero, hval] at h0
      omega
    rw [hcast, ZMod.neg_val, if_neg hne, hval]
    exact iff_of_true (by omega) hz
  · obtain ⟨m, hm⟩ : ∃ m : Nat, z = (m : Int) := ⟨z.toNat, by omega⟩
    subst hm
    have hval : ((m : Nat) : Ring32).val = m := ZMod.val_cast_of_lt (by omega)
    rw [Int.cast_natCast, hval]
    exact iff_of_false (by omega) (by omega)

/-- Products of signed 16-bit values differ by strictly less than
`2^31`. -/
theorem cross_diff_bounds (a b c d : Int)
    (ha1 : -(2 ^ 15) ≤ a) (ha2 : a < 2 ^ 15)
    (hb1 : -(2 ^ 15) ≤ b) (hb2 : b < 2 ^ 15)
    (hc1 : -(2 ^ 15) ≤ c) (hc2 : c < 2 ^ 15)
    (hd1 : -(2 ^ 15) ≤ d) (hd2 : d < 2 ^ 15) :
    -(2 ^ 31) ≤ a * b - c * d ∧ a * b - c * d < 2 ^ 31 := by
  have hab_hi : a * b ≤ 2 ^ 30 := by nlinarith
  have hab_lo : -(2 ^ 30) + a + 2 ^ 15 ≤ a * b ∨ -(2 ^ 30) ≤ a * b := by
    right; nlinarith
  have hcd_hi : c * d ≤ 2 ^ 30 := by nlinarith
  have hcd_lo : -(2 ^ 30) < c * d := by nlinarith
  have hab_lo' : -(2 ^ 30) ≤ a * b := by nlinarith
  constructor
  · nlinarith
  · nlinarith

/-- Three-party simulation of `cross_compare` (`ops.rs` lines 167-181):
run `cross_mul_via_lift`, compute `diff = d2t1 - d1t2`, extract the MSB
of `diff`, open the bit and convert it to a boolean. -/
def cross_compare (f : Nat → Nat → Ring32) (s0 s1 s2 : Nat)
    (d1 t1 d2 t2 : ShareTriple Ring16) : Bool :=
  let r := cross_mul_via_lift f s0 s1 s2 d1 t1 d2 t2
  let diff := subTriple r.2 r.1
  let bit := single_extract_msb_u32 diff
  open_bin bit = 1

/-- Claim C3, amended.  For consistent replicated ℤ₂^16 sharings of
`d1, t1, d2, t2`, `cross_compare` returns the plaintext boolean that is
true iff `d2·t1 < d1·t2` over the true signed secrets (the MSB of
`d2·t1 - d1·t2` is the sign bit, i.e. set exactly on "less than", not on
"greater than" as claimed). -/
theorem cross_compare_correct (f : Nat → Nat → Ring32) (s0 s1 s2 : Nat)
    (d1 t1 d2 t2 : ShareTriple Ring16) (D1 T1 D2 T2 : Ring16)
    (hd1 : Replicates d1 D1) (ht1 : Replicates t1 T1)
    (hd2 : Replicates d2 D2) (ht2 : Replicates t2 T2) :
    (cross_compare f s0 s1 s2 d1 t1 d2 t2 = true
      ↔ toSigned D2 * toSigned T1 < toSigned D1 * toSigned T2) := by
  have h := cross_mul_via_lift_correct f s0 s1 s2 d1 t1 d2 t2 D1 T1 D2 T2
    hd1 ht1 hd2 ht2
  have hdiff := replicates_subTriple h.2.1 h.1
  have hdiffcast :
      ((toSigned D2 * toSigned T1 : Int) : Ring32)
          - ((toSigned D1 * toSigned T2 : Int) : Ring32)
        = (((toSigned D2 * toSigned T1 - toSigned D1 * toSigned T2 : Int)) : Ring32) := by
    push_cast
    ring
  rw [hdiffcast] at hdiff
  have hb2 := toSigned_mem D2
  have hb1 := toSigned_mem T1
  have hb3 := toSigned_mem D1
  have hb4 := toSigned_mem T2
  have hbounds := cross_diff_bounds (toSigned D2) (toSigned T1)
    (toSigned D1) (toSigned T2) hb2.1 hb2.2 hb1.1 hb1.2 hb3.1 hb3.2 hb4.1 hb4.2
  have hmsb := msb_intCast_iff
    (toSigned D2 * toSigned T1 - toSigned D1 * toSigned T2) hbounds.1 hbounds.2
  unfold cross_compare
  simp only [open_bin, single_extract_msb_u32, openTriple_shareOfSecret]
  rw [openTriple_eq_of_replicates hdiff]
  unfold msb32
  split
  · simp only [decide_eq_true_eq, true_iff]
    have := hmsb.mp (by assumption)
    omega
  · simp only [decide_eq_true_eq]
    constructor
    · intro hfalse
      exact absurd hfalse (by decide)
    · intro hlt
      exact absurd (hmsb.mpr (by omega)) (by assumption)

/-- Claim C3, counterexample to the claim as stated.  At the consistently
shared secrets `(d1, t1, d2, t2) = (1, 2, 3, 4)` we have
`d2·t1 = 6 > 4 = d1·t2`, yet `cross_compare` opens to `false`: the
claimed equivalence with `d2·t1 > d1·t2` fails. -/
theorem cross_compare_claim_false :
    ¬(cross_compare (fun _ _ => 0) 5 6 7 (shareOfSecret 1) (shareOfSecret 2)
        (shareOfSecret 3) (shareOfSecret (4 : Ring16)) = true
      ↔ toSigned 3 * toSigned 2 > toSigned 1 * toSigned (4 : Ring16)) := by
  decide

/-- Witness for the amended C3 theorem at the secrets `(1, 2, 3, 4)`:
the opened boolean equals the comparison `3·2 < 1·4` (both false). -/
theorem cross_compare_correct_witness :
    cross_compare (fun _ _ => 0) 5 6 7 (shareOfSecret 1) (shareOfSecret 2)
        (shareOfSecret 3) (shareOfSecret (4 : Ring16)) = true
      ↔ toSigned 3 * toSigned 2 < toSigned 1 * toSigned (4 : Ring16) :=
  cross_compare_correct (fun _ _ => 0) 5 6 7 (shareOfSecret 1)
    (shareOfSecret 2) (shareOfSecret 3) (shareOfSecret 4) 1 2 3 4
    (replicates_shareOfSecret _) (replicates_shareOfSecret _)
    (replicates_shareOfSecret _) (replicates_shareOfSecret _)

/-- A party's share of an iris in the Galois-ring representation
(`database_generators.rs`, `GaloisRingSharedIris`): a packed code share
and a packed trimmed-mask share.  The coefficient types are abstract
here; the Galois-ring dot (`trick_dot`) on them is a parameter, see
`TrickDotRecon`. -/
structure GaloisRingSharedIris (C M : Type) where
  code : C
  mask : M

/-- Three-party simulation of `galois_ring_pairwise_distance` (`ops.rs`
lines 186-202) for one party: for each pair `(x, y)` push
`trick_dot(x.code, y.code)` and then `2 * trick_dot(x.mask, y.mask)`
(the factor 2 compensating the trimmed mask representation), producing a
vector of additive ℤ₂^16 shares of length `2 * pairs.len()`. -/
def galois_ring_pairwise_distance {C M : Type} (tdC : C → C → Ring16)
    (tdM : M → M → Ring16) :
    List (GaloisRingSharedIris C M × GaloisRingSharedIris C M) → List Ring16
  | [] => []
  | p :: rest =>
      tdC p.1.code p.2.code :: (2 : Ring16) * tdM p.1.mask p.2.mask ::
        galois_ring_pairwise_distance tdC tdM rest

/-- One party's masking pass in `galois_ring_to_rep3` (`ops.rs` lines
214-218): each additive share is masked with the party's next
`gen_zero_share`, consuming the PRF counter sequentially. -/
def maskStream (f : Nat → Nat → Ring16) (sm sp : Nat) :
    Nat → List Ring16 → List Ring16
  | _, [] => []
  | k, x :: xs => (genZeroShare f sm sp k + x) :: maskStream f sm sp (k + 1) xs

/-- Three-party simulation of `galois_ring_to_rep3` (`ops.rs` lines
206-246): each party masks its additive shares with zero-shares, sends
the masked vector to the next party, receives the previous party's
masked vector, and zips them into replicated `Share`s.  P0 holds seeds
`(s0, s2)`, P1 `(s1, s0)`, P2 `(s2, s1)`. -/
def galois_ring_to_rep3 (f : Nat → Nat → Ring16) (s0 s1 s2 : Nat)
    (x0 x1 x2 : List Ring16) :
    List (Share Ring16) × List (Share Ring16) × List (Share Ring16) :=
  let m0 := maskStream f s0 s2 0 x0
  let m1 := maskStream f s1 s0 0 x1
  let m2 := maskStream f s2 s1 0 x2
  (List.zipWith Share.mk m0 m2, List.zipWith Share.mk m1 m0,
    List.zipWith Share.mk m2 m1)

/-- Pointwise opening of three parties' replicated share vectors: the
reconstructed value at each index is the sum of the three a-coordinates. -/
def openRepList : List (Share Ring16) → List (Share Ring16) →
    List (Share Ring16) → List Ring16
  | a :: as, b :: bs, c :: cs => (a.a + b.a + c.a) :: openRepList as bs cs
  | _, _, _ => []

/-- Pointwise sum of three additive share vectors. -/
def sumThree : List Ring16 → List Ring16 → List Ring16 → List Ring16
  | a :: as, b :: bs, c :: cs => (a + b + c) :: sumThree as bs cs
  | _, _, _ => []

/-- Opening after `galois_ring_to_rep3` reconstructs the pointwise sum of
the three parties' additive inputs: the zero-share masks cancel around
the triangle. -/
theorem openRepList_to_rep3_aux (f : Nat → Nat → Ring16) (s0 s1 s2 : Nat) :
    ∀ (k : Nat) (x0 x1 x2 : List Ring16),
      openRepList
          (List.zipWith Share.mk (maskStream f s0 s2 k x0) (maskStream f s2 s1 k x2))
          (List.zipWith Share.mk (maskStream f s1 s0 k x1) (maskStream f s0 s2 k x0))
          (List.zipWith Share.mk (maskStream f s2 s1 k x2) (maskStream f s1 s0 k x1))
        = sumThree x0 x1 x2 := by
  intro k x0
  induction x0 generalizing k with
  | nil =>
    intro x1 x2
    rfl
  | cons a as ih =>
    intro x1 x2
    cases x1 with
    | nil => cases x2 <;> rfl
    | cons b bs =>
      cases x2 with
      | nil => rfl
      | cons c cs =>
        simp only [maskStream, List.zipWith, openRepList, sumThree]
        rw [ih (k + 1) bs cs]
        congr 1
        simp only [genZeroShare]
        ring

theorem openRepList_to_rep3 (f : Nat → Nat → Ring16) (s0 s1 s2 : Nat)
    (x0 x1 x2 : List Ring16) :
    openRepList (galois_ring_to_rep3 f s0 s1 s2 x0 x1 x2).1
        (galois_ring_to_rep3 f s0 s1 s2 x0 x1 x2).2.1
        (galois_ring_to_rep3 f s0 s1 s2 x0 x1 x2).2.2
      = sumThree x0 x1 x2 := by
  simp only [galois_ring_to_rep3]
  exact openRepList_to_rep3_aux f s0 s1 s2 0 x0 x1 x2

theorem galois_ring_pairwise_distance_length {C M : Type}
    (tdC : C → C → Ring16) (tdM : M → M → Ring16) :
    ∀ ps : List (GaloisRingSharedIris C M × GaloisRingSharedIris C M),
      (galois_ring_pairwise_distance tdC tdM ps).length = 2 * ps.length := by
  intro ps
  induction ps with
  | nil => rfl
  | cons p rest ih =>
    simp only [galois_ring_pairwise_distance, List.length_cons, ih]
    omega

theorem galois_ring_pairwise_distance_getD_even {C M : Type}
    (tdC : C → C → Ring16) (tdM : M → M → Ring16) :
    ∀ (ps : List (GaloisRingSharedIris C M × GaloisRingSharedIris C M))
      (i : Nat) (h : i < ps.length),
      (galois_ring_pairwise_distance tdC tdM ps).getD (2 * i) 0
        = tdC (ps.get ⟨i, h⟩).1.code (ps.get ⟨i, h⟩).2.code := by
  intro ps
  induction ps with
  | nil => intro i h; exact absurd h (by simp)
  | cons p rest ih =>
    intro i h
    cases i with
    | zero => rfl
    | succ j =>
      have h2 : (2 : Nat) * (j + 1) = 2 * j + 1 + 1 := by ring
      rw [h2]
      simp only [galois_ring_pairwise_distance, List.getD_cons_succ]
      exact ih j (Nat.lt_of_succ_lt_succ h)

theorem galois_ring_pairwise_distance_getD_odd {C M : Type}
    (tdC : C → C → Ring16) (tdM : M → M → Ring16) :
    ∀ (ps : List (GaloisRingSharedIris C M × GaloisRingSharedIris C M))
      (i : Nat) (h : i < ps.length),
      (galois_ring_pairwise_distance tdC tdM ps).getD (2 * i + 1) 0
        = 2 * tdM (ps.get ⟨i, h⟩).1.mask (ps.get ⟨i, h⟩).2.mask := by
  intro ps
  induction ps with
  | nil => intro i h; exact absurd h (by simp)
  | cons p rest ih =>
    intro i h
    cases i with
    | zero => rfl
    | succ j =>
      have h2 : (2 : Nat) * (j + 1) + 1 = 2 * j + 1 + 1 + 1 := by ring
      rw [h2]
      simp only [galois_ring_pairwise_distance, List.getD_cons_succ]
      exact ih j (Nat.lt_of_succ_lt_succ h)

/-- One batch entry of the three-party distance computation: the three
parties' `(x, y)` share pairs for one iris pair, together with the
plaintext code dot and (trimmed) mask dot of the underlying cleartext
irises. -/
structure GrPairView (C M : Type) where
  x0 : GaloisRingSharedIris C M
  y0 : GaloisRingSharedIris C M
  x1 : GaloisRingSharedIris C M
  y1 : GaloisRingSharedIris C M
  x2 : GaloisRingSharedIris C M
  y2 : GaloisRingSharedIris C M
  codeDot : Ring16
  maskDot : Ring16

/-- Modelled from the spec: the `trick_dot` reconstruction property of
the Galois-ring sharing (spec glossary "Trick dot": the dot in the
Galois-ring representation yields a ring element equal to the inner
product of the underlying vectors; `galois.rs` is not in the embedded
sources).  With the query side preprocessed, the three parties'
`trick_dot` outputs are an additive sharing of the plaintext dot
product: their sum mod 2^16 is the cleartext code (resp. trimmed mask)
dot product. -/
def TrickDotRecon {C M : Type} (tdC : C → C → Ring16) (tdM : M → M → Ring16)
    (t : GrPairView C M) : Prop :=
  tdC t.x0.code t.y0.code + tdC t.x1.code t.y1.code + tdC t.x2.code t.y2.code
      = t.codeDot ∧
    tdM t.x0.mask t.y0.mask + tdM t.x1.mask t.y1.mask + tdM t.x2.mask t.y2.mask
      = t.maskDot

/-- Party 0's view of the batch. -/
def partyPairs0 {C M : Type} (batch : List (GrPairView C M)) :
    List (GaloisRingSharedIris C M × GaloisRingSharedIris C M) :=
  batch.map fun t => (t.x0, t.y0)

/-- Party 1's view of the batch. -/
def partyPairs1 {C M : Type} (batch : List (GrPairView C M)) :
    List (GaloisRingSharedIris C M × GaloisRingSharedIris C M) :=
  batch.map fun t => (t.x1, t.y1)

/-- Party 2's view of the batch. -/
def partyPairs2 {C M : Type} (batch : List (GrPairView C M)) :
    List (GaloisRingSharedIris C M × GaloisRingSharedIris C M) :=
  batch.map fun t => (t.x2, t.y2)

/-- The plaintext distance vector of a batch: per pair, the code dot
followed by twice the trimmed-mask dot. -/
def expectedDots {C M : Type} : List (GrPairView C M) → List Ring16
  | [] => []
  | t :: rest => t.codeDot :: (2 : Ring16) * t.maskDot :: expectedDots rest

theorem sumThree_pairwise_distance {C M : Type} (tdC : C → C → Ring16)
    (tdM : M → M → Ring16) :
    ∀ batch : List (GrPairView C M),
      (∀ t ∈ batch, TrickDotRecon tdC tdM t) →
      sumThree (galois_ring_pairwise_distance tdC tdM (partyPairs0 batch))
          (galois_ring_pairwise_distance tdC tdM (partyPairs1 batch))
          (galois_ring_pairwise_distance tdC tdM (partyPairs2 batch))
        = expectedDots batch := by
  intro batch
  induction batch with
  | nil => intro _; rfl
  | cons t rest ih =>
    intro hrec
    have ht := hrec t (by simp)
    have hrest : ∀ u ∈ rest, TrickDotRecon tdC tdM u := by
      intro u hu
      exact hrec u (by simp [hu])
    simp only [partyPairs0, partyPairs1, partyPairs2, List.map_cons,
      galois_ring_pairwise_distance, sumThree, expectedDots] at *
    rw [ih hrest]
    congr 1
    · exact ht.1
    · congr 1
      rw [← ht.2]
      ring

/-- Claim C2.  For every batch of Galois-ring shared iris pairs held by the
three parties (query side preprocessed, which together with the sharing
makes the per-pair `trick_dot` outputs an additive sharing of the
plaintext dot — the `TrickDotRecon` hypothesis),
`galois_ring_pairwise_distance` produces for each party a vector of
length `2 * pairs.len()` whose entry `2i` is `trick_dot(x.code, y.code)`
and whose entry `2i+1` is `2 * trick_dot(x.mask, y.mask)`; feeding the
three vectors through `galois_ring_to_rep3` and opening the replicated
result reconstructs, in ℤ₂^16, the plaintext code dots and twice the
plaintext mask dots. -/
theorem galois_ring_distance_rep3_correct {C M : Type}
    (tdC : C → C → Ring16) (tdM : M → M → Ring16)
    (f : Nat → Nat → Ring16) (s0 s1 s2 : Nat)
    (batch : List (GrPairView C M))
    (hrec : ∀ t ∈ batch, TrickDotRecon tdC tdM t) :
    (∀ ps : List (GaloisRingSharedIris C M × GaloisRingSharedIris C M),
      (galois_ring_pairwise_distance tdC tdM ps).length = 2 * ps.length ∧
        ∀ (i : Nat) (h : i < ps.length),
          (galois_ring_pairwise_distance tdC tdM ps).getD (2 * i) 0
              = tdC (ps.get ⟨i, h⟩).1.code (ps.get ⟨i, h⟩).2.code ∧
            (galois_ring_pairwise_distance tdC tdM ps).getD (2 * i + 1) 0
              = 2 * tdM (ps.get ⟨i, h⟩).1.mask (ps.get ⟨i, h⟩).2.mask) ∧
      openRepList
          (galois_ring_to_rep3 f s0 s1 s2
            (galois_ring_pairwise_distance tdC tdM (partyPairs0 batch))
            (galois_ring_pairwise_distance tdC tdM (partyPairs1 batch))
            (galois_ring_pairwise_distance tdC tdM (partyPairs2 batch))).1
          (galois_ring_to_rep3 f s0 s1 s2
            (galois_ring_pairwise_distance tdC tdM (partyPairs0 batch))
            (galois_ring_pairwise_distance tdC tdM (partyPairs1 batch))
            (galois_ring_pairwise_distance tdC tdM (partyPairs2 batch))).2.1
          (galois_ring_to_rep3 f s0 s1 s2
            (galois_ring_pairwise_distance tdC tdM (partyPairs0 batch))
            (galois_ring_pairwise_distance tdC tdM (partyPairs1 batch))
            (galois_ring_pairwise_distance tdC tdM (partyPairs2 batch))).2.2
        = expectedDots batch := by
  refine ⟨fun ps => ⟨galois_ring_pairwise_distance_length tdC tdM ps,
    fun i h => ⟨galois_ring_pairwise_distance_getD_even tdC tdM ps i h,
      galois_ring_pairwise_distance_getD_odd tdC tdM ps i h⟩⟩, ?_⟩
  rw [openRepList_to_rep3]
  exact sumThree_pairwise_distance tdC tdM batch hrec

/-- Witness for C2 at a concrete singleton batch over trivial coefficient
types: the per-party dots are the constants 1 (code) and 2 (mask), so the
plaintext dots are 3 and 6, and the opened reshared vector is `[3, 2·6]`. -/
theorem galois_ring_distance_rep3_correct_witness :
    openRepList
        (galois_ring_to_rep3 (fun _ _ => 0) 5 6 7
          (galois_ring_pairwise_distance (fun _ _ => (1 : Ring16))
            (fun _ _ => (2 : Ring16))
            (partyPairs0 [(⟨⟨(), ()⟩, ⟨(), ()⟩, ⟨(), ()⟩, ⟨(), ()⟩, ⟨(), ()⟩,
              ⟨(), ()⟩, 3, 6⟩ : GrPairView Unit Unit)]))
          (galois_ring_pairwise_distance (fun _ _ => (1 : Ring16))
            (fun _ _ => (2 : Ring16))
            (partyPairs1 [(⟨⟨(), ()⟩, ⟨(), ()⟩, ⟨(), ()⟩, ⟨(), ()⟩, ⟨(), ()⟩,
              ⟨(), ()⟩, 3, 6⟩ : GrPairView Unit Unit)]))
          (galois_ring_pairwise_distance (fun _ _ => (1 : Ring16))
            (fun _ _ => (2 : Ring16))
            (partyPairs2 [(⟨⟨(), ()⟩, ⟨(), ()⟩, ⟨(), ()⟩, ⟨(), ()⟩, ⟨(), ()⟩,
              ⟨(), ()⟩, 3, 6⟩ : GrPairView Unit Unit)]))).1
        (galois_ring_to_rep3 (fun _ _ => 0) 5 6 7
          (galois_ring_pairwise_distance (fun _ _ => (1 : Ring16))
            (fun _ _ => (2 : Ring16))
            (partyPairs0 [(⟨⟨(), ()⟩, ⟨(), ()⟩, ⟨(), ()⟩, ⟨(), ()⟩, ⟨(), ()⟩,
              ⟨(), ()⟩, 3, 6⟩ : GrPairView Unit Unit)]))
          (galois_ring_pairwise_distance (fun _ _ => (1 : Ring16))
            (fun _ _ => (2 : Ring16))
            (partyPairs1 [(⟨⟨(), ()⟩, ⟨(), ()⟩, ⟨(), ()⟩, ⟨(), ()⟩, ⟨(), ()⟩,
              ⟨(), ()⟩, 3, 6⟩ : GrPairView Unit Unit)]))
          (galois_ring_pairwise_distance (fun _ _ => (1 : Ring16))
            (fun _ _ => (2 : Ring16))
            (partyPairs2 [(⟨⟨(), ()⟩, ⟨(), ()⟩, ⟨(), ()⟩, ⟨(), ()⟩, ⟨(), ()⟩,
              ⟨(), ()⟩, 3, 6⟩ : GrPairView Unit Unit)]))).2.1
        (galois_ring_to_rep3 (fun _ _ => 0) 5 6 7
          (galois_ring_pairwise_distance (fun _ _ => (1 : Ring16))
            (fun _ _ => (2 : Ring16))
            (partyPairs0 [(⟨⟨(), ()⟩, ⟨(), ()⟩, ⟨(), ()⟩, ⟨(), ()⟩, ⟨(), ()⟩,
              ⟨(), ()⟩, 3, 6⟩ : GrPairView Unit Unit)]))
          (galois_ring_pairwise_distance (fun _ _ => (1 : Ring16))
            (fun _ _ => (2 : Ring16))
            (partyPairs1 [(⟨⟨(), ()⟩, ⟨(), ()⟩, ⟨(), ()⟩, ⟨(), ()⟩, ⟨(), ()⟩,
              ⟨(), ()⟩, 3, 6⟩ : GrPairView Unit Unit)]))
          (galois_ring_pairwise_distance (fun _ _ => (1 : Ring16))
            (fun _ _ => (2 : Ring16))
            (partyPairs2 [(⟨⟨(), ()⟩, ⟨(), ()⟩, ⟨(), ()⟩, ⟨(), ()⟩, ⟨(), ()⟩,
              ⟨(), ()⟩, 3, 6⟩ : GrPairView Unit Unit)]))).2.2
      = expectedDots [(⟨⟨(), ()⟩, ⟨(), ()⟩, ⟨(), ()⟩, ⟨(), ()⟩, ⟨(), ()⟩,
          ⟨(), ()⟩, 3, 6⟩ : GrPairView Unit Unit)] :=
  (galois_ring_distance_rep3_correct (fun _ _ => (1 : Ring16))
    (fun _ _ => (2 : Ring16)) (fun _ _ => 0) 5 6 7
    [(⟨⟨(), ()⟩, ⟨(), ()⟩, ⟨(), ()⟩, ⟨(), ()⟩, ⟨(), ()⟩, ⟨(), ()⟩, 3, 6⟩ :
      GrPairView Unit Unit)]
    (by
      intro t ht
      rw [List.mem_singleton] at ht
      subst ht
      exact ⟨by decide, by decide⟩)).2

/-- Three-party simulation of `galois_ring_is_match` (`ops.rs` lines
254-265).  The function first asserts `pairs.len() == 1`; the assertion
failure (modelled as `none`) happens before any distance computation or
network communication.  On a singleton batch it computes the pairwise
distance, reshares to replicated form, compares `rep_dots[0]` (code dot)
against `rep_dots[1]` (mask dot) with `compare_threshold`, opens the bit
and converts it to a boolean. -/
def galois_ring_is_match {C M : Type} (tdC : C → C → Ring16)
    (tdM : M → M → Ring16) (f : Nat → Nat → Ring16) (s0 s1 s2 A : Nat)
    (batch : List (GrPairView C M)) : Option Bool :=
  if batch.length = 1 then
    let d0 := galois_ring_pairwise_distance tdC tdM (partyPairs0 batch)
    let d1 := galois_ring_pairwise_distance tdC tdM (partyPairs1 batch)
    let d2 := galois_ring_pairwise_distance tdC tdM (partyPairs2 batch)
    let r := galois_ring_to_rep3 f s0 s1 s2 d0 d1 d2
    let rep0 : ShareTriple Ring16 :=
      ⟨r.1.getD 0 ⟨0, 0⟩, r.2.1.getD 0 ⟨0, 0⟩, r.2.2.getD 0 ⟨0, 0⟩⟩
    let rep1 : ShareTriple Ring16 :=
      ⟨r.1.getD 1 ⟨0, 0⟩, r.2.1.getD 1 ⟨0, 0⟩, r.2.2.getD 1 ⟨0, 0⟩⟩
    some (decide (open_bin (compare_threshold A rep0 rep1) = 1))
  else
    none

/-- Claim C10.  The function `galois_ring_is_match` requires a batch of exactly one iris
pair: on every batch whose length differs from 1 it hits the leading
assertion (modelled as `none`) before any distance computation or
communication, and under the precondition `pairs.len() = 1` the
assertion-failure branch is unreachable (the result is always `some`). -/
theorem galois_ring_is_match_guard {C M : Type} (tdC : C → C → Ring16)
    (tdM : M → M → Ring16) (f : Nat → Nat → Ring16) (s0 s1 s2 A : Nat)
    (batch : List (GrPairView C M)) :
    (batch.length ≠ 1 →
        galois_ring_is_match tdC tdM f s0 s1 s2 A batch = none) ∧
      (batch.length = 1 →
        ∃ b, galois_ring_is_match tdC tdM f s0 s1 s2 A batch = some b) := by
  constructor
  · intro hne
    simp [galois_ring_is_match, hne]
  · intro h1
    unfold galois_ring_is_match
    rw [if_pos h1]
    exact ⟨_, rfl⟩

/-- Witness for C10: the empty batch trips the assertion, a singleton
batch does not. -/
theorem galois_ring_is_match_guard_witness :
    galois_ring_is_match (fun _ _ => (1 : Ring16)) (fun _ _ => (2 : Ring16))
        (fun _ _ => 0) 5 6 7 16384 ([] : List (GrPairView Unit Unit)) = none ∧
      ∃ b, galois_ring_is_match (fun _ _ => (1 : Ring16))
        (fun _ _ => (2 : Ring16)) (fun _ _ => 0) 5 6 7 16384
        [(⟨⟨(), ()⟩, ⟨(), ()⟩, ⟨(), ()⟩, ⟨(), ()⟩, ⟨(), ()⟩, ⟨(), ()⟩, 3, 6⟩ :
          GrPairView Unit Unit)] = some b :=
  ⟨(galois_ring_is_match_guard (fun _ _ => (1 : Ring16))
      (fun _ _ => (2 : Ring16)) (fun _ _ => 0) 5 6 7 16384 []).1 (by decide),
    (galois_ring_is_match_guard (fun _ _ => (1 : Ring16))
      (fun _ _ => (2 : Ring16)) (fun _ _ => 0) 5 6 7 16384 _).2 rfl⟩

/-- The constant `LIMBS` (`src/dot/share_db.rs` line 22): each 16-bit coefficient is
decomposed into two 8-bit limbs. -/
def LIMBS : Nat := 2

/-- Embedding of `preprocess_query` (`src/dot/share_db.rs` lines 24-38).
For each limb index `i < LIMBS` and each query entry, take the i-th
little-endian byte (`(entry as u32 >> (i * 8)) as u8`, i.e. shift right
and reduce mod 256) and recenter it (`(tmp as i32 - 128) as u8`, i.e.
subtract 128 with wraparound mod 256). -/
def preprocess_query (query : List Nat) : List (List Nat) :=
  (List.range LIMBS).map fun i =>
    query.map fun entry => ((entry >>> (i * 8)) % 256 + 256 - 128) % 256

theorem getD_map_nat (g : Nat → Nat) :
    ∀ (l : List Nat) (idx : Nat), idx < l.length →
      (l.map g).getD idx 0 = g (l.getD idx 0) := by
  intro l
  induction l with
  | nil => intro idx h; exact absurd h (by simp)
  | cons x xs ih =>
    intro idx h
    cases idx with
    | zero => rfl
    | succ j =>
      simp only [List.map_cons, List.getD_cons_succ]
      exact ih j (Nat.lt_of_succ_lt_succ h)

/-- The recentred limb computed by the code equals the claim's
description: the i-th little-endian byte with 128 subtracted as a
wrapping cast to `u8`. -/
theorem limb_arith (v i : Nat) :
    ((v >>> (i * 8)) % 256 + 256 - 128) % 256
      = Int.toNat (((((v / 2 ^ (8 * i)) % 256 : Int) - 128)) % 256) := by
  have hshift : v >>> (i * 8) = v / 2 ^ (8 * i) := by
    rw [Nat.shiftRight_eq_div_pow, Nat.mul_comm]
  rw [hshift]
  have hpow : ((2 : Int) ^ (8 * i)) = ((2 ^ (8 * i) : Nat) : Int) := by
    push_cast
    ring
  have hdiv : ((v : Int) / 2 ^ (8 * i)) = (((v / 2 ^ (8 * i) : Nat)) : Int) := by
    rw [hpow]
    exact (Int.ofNat_tdiv v _).symm
  have hmod : ((v : Int) / 2 ^ (8 * i)) % 256
      = ((((v / 2 ^ (8 * i)) % 256 : Nat)) : Int) := by
    rw [hdiv]
    push_cast
    ring
  rw [hmod]
  have hlt : (v / 2 ^ (8 * i)) % 256 < 256 := Nat.mod_lt _ (by norm_num)
  omega

/-- Claim C9.  For every slice `q` of u16 coefficients, `preprocess_query`
returns exactly two limb vectors, each of length `q.len()`; the entry at
`idx` of limb `i` is the i-th little-endian byte of `q[idx]` with 128
subtracted, computed as a wrapping cast to `u8`. -/
theorem preprocess_query_correct (q : List Nat) (_hq : ∀ x ∈ q, x < 2 ^ 16) :
    (preprocess_query q).length = 2 ∧
      (∀ l ∈ preprocess_query q, l.length = q.length) ∧
      ∀ (i : Nat), i < 2 → ∀ (idx : Nat), idx < q.length →
        ((preprocess_query q).getD i []).getD idx 0
          = Int.toNat (((((q.getD idx 0 / 2 ^ (8 * i)) % 256 : Int) - 128)) % 256) := by
  refine ⟨rfl, ?_, ?_⟩
  · intro l hl
    simp only [preprocess_query, LIMBS, List.mem_map] at hl
    obtain ⟨i, _, rfl⟩ := hl
    simp
  · intro i hi idx hidx
    have hget : ((preprocess_query q).getD i []).getD idx 0
        = ((q.getD idx 0 >>> (i * 8)) % 256 + 256 - 128) % 256 := by
      interval_cases i <;>
        exact getD_map_nat _ q idx hidx
    rw [hget, limb_arith]

/-- Witness for C9 at the concrete query `[1, 65535]`. -/
theorem preprocess_query_correct_witness :
    (preprocess_query [1, 65535]).length = 2 ∧
      (∀ l ∈ preprocess_query [1, 65535], l.length = ([1, 65535] : List Nat).length) ∧
      ∀ (i : Nat), i < 2 → ∀ (idx : Nat), idx < ([1, 65535] : List Nat).length →
        ((preprocess_query [1, 65535]).getD i []).getD idx 0
          = Int.toNat ((((((([1, 65535] : List Nat).getD idx 0 / 2 ^ (8 * i)) % 256 : Int) - 128)) % 256)) :=
  preprocess_query_correct [1, 65535] (by decide)

/-- The inner plaintext record of the ingestion envelope
(`smpc_request.rs`, `IrisCodesJSON`); the base64 share payloads are kept
as abstract byte strings. -/
structure IrisCodesJSON where
  iris_version : List Nat
  iris_shares_version : List Nat
  left_iris_code_shares : List Nat
  right_iris_code_shares : List Nat
  left_mask_code_shares : List Nat
  right_mask_code_shares : List Nat
deriving DecidableEq

/-- The error kinds of `decrypt_iris_share`
(`helpers/key_pair.rs::SharesDecodingError`, as matched by the tests in
`iris-mpc-common/tests/smpc_request.rs`). -/
inductive SharesDecodingError where
  | base64DecodeError
  | sealedBoxOpenError
  | decodedShareParsingToUTF8Error
  | serdeError
deriving DecidableEq

/-- The current secret key and the optional previous secret key
(`helpers/key_pair.rs`, `SharesEncryptionKeyPairs`). -/
structure SharesEncryptionKeyPairs where
  currentSecret : Nat
  previousSecret : Option Nat

/-- Modelled from the spec: the external codecs used by
`decrypt_iris_share` (spec §4.8 and §6; the implementation in
`helpers/smpc_request.rs` / libsodium is not in the embedded sources).
`b64decode` partially decodes a base64 string to bytes, `boxOpen` opens a
sealed box under a secret key, `utf8decode` partially decodes bytes to a
UTF-8 string, `jsonParse` partially parses a string as `IrisCodesJSON`;
the companion encoding directions are used for the round-trip claim. -/
structure IngestionCodecs where
  b64decode : List Nat → Option (List Nat)
  b64encode : List Nat → List Nat
  boxOpen : List Nat → Nat → Option (List Nat)
  sealBox : List Nat → Nat → List Nat
  utf8decode : List Nat → Option (List Nat)
  jsonParse : List Nat → Option IrisCodesJSON
  jsonSerialize : IrisCodesJSON → List Nat

/-- The key-rotation fallback inside `decrypt_iris_share`: try the
current secret key; on failure try the previous secret key if present. -/
def openWithFallback (cs : IngestionCodecs) (kp : SharesEncryptionKeyPairs)
    (sealedBox : List Nat) : Option (List Nat) :=
  match cs.boxOpen sealedBox kp.currentSecret with
  | some pt => some pt
  | none =>
      match kp.previousSecret with
      | none => none
      | some prev => cs.boxOpen sealedBox prev

/-- Modelled from the spec: `decrypt_iris_share` (spec §4.8;
`helpers/smpc_request.rs`, not in the embedded sources — its behaviour is
pinned by the tests in `iris-mpc-common/tests/smpc_request.rs`):
base64-decode, open the sealed box with current-then-previous key,
decode UTF-8, parse JSON; each step failing with its own error kind. -/
def decrypt_iris_share (cs : IngestionCodecs) (kp : SharesEncryptionKeyPairs)
    (ciphertext : List Nat) : Except SharesDecodingError IrisCodesJSON :=
  match cs.b64decode ciphertext with
  | none => .error .base64DecodeError
  | some sealedBox =>
      match openWithFallback cs kp sealedBox with
      | none => .error .sealedBoxOpenError
      | some plaintext =>
          match cs.utf8decode plaintext with
          | none => .error .decodedShareParsingToUTF8Error
          | some s =>
              match cs.jsonParse s with
              | none => .error .serdeError
              | some record => .ok record

/-- Claim C7.  The function `decrypt_iris_share` performs, in order, base64 decoding,
sealed-box opening with the current then (if present) the previous
secret key, UTF-8 decoding, and JSON parsing, and it fails with exactly
the error kind of the first failing step: `Base64Decode` on invalid
base64; `SealedBoxOpen` when neither key opens the box, including when no
previous key exists; `Utf8` on non-UTF-8 plaintext; `Json` on
non-conforming JSON; it returns the parsed record when every step
succeeds. -/
theorem decrypt_iris_share_error_order (cs : IngestionCodecs)
    (kp : SharesEncryptionKeyPairs) (ct : List Nat) :
    (cs.b64decode ct = none →
        decrypt_iris_share cs kp ct = .error .base64DecodeError) ∧
      (∀ box, cs.b64decode ct = some box →
        cs.boxOpen box kp.currentSecret = none → kp.previousSecret = none →
        decrypt_iris_share cs kp ct = .error .sealedBoxOpenError) ∧
      (∀ box prev, cs.b64decode ct = some box →
        cs.boxOpen box kp.currentSecret = none →
        kp.previousSecret = some prev → cs.boxOpen box prev = none →
        decrypt_iris_share cs kp ct = .error .sealedBoxOpenError) ∧
      (∀ box pt, cs.b64decode ct = some box →
        openWithFallback cs kp box = some pt → cs.utf8decode pt = none →
        decrypt_iris_share cs kp ct = .error .decodedShareParsingToUTF8Error) ∧
      (∀ box pt s, cs.b64decode ct = some box →
        openWithFallback cs kp box = some pt → cs.utf8decode pt = some s →
        cs.jsonParse s = none →
        decrypt_iris_share cs kp ct = .error .serdeError) ∧
      (∀ box pt s record, cs.b64decode ct = some box →
        openWithFallback cs kp box = some pt → cs.utf8decode pt = some s →
        cs.jsonParse s = some record →
        decrypt_iris_share cs kp ct = .ok record) := by
  refine ⟨?_, ?_, ?_, ?_, ?_, ?_⟩
  · intro h
    simp [decrypt_iris_share, h]
  · intro box hbox hcur hprev
    simp [decrypt_iris_share, hbox, openWithFallback, hcur, hprev]
  · intro box prev hbox hcur hprev hpo
    simp [decrypt_iris_share, hbox, openWithFallback, hcur, hprev, hpo]
  · intro box pt hbox hopen hutf
    simp [decrypt_iris_share, hbox, hopen, hutf]
  · intro box pt s hbox hopen hutf hjson
    simp [decrypt_iris_share, hbox, hopen, hutf, hjson]
  · intro box pt s record hbox hopen hutf hjson
    simp [decrypt_iris_share, hbox, hopen, hutf, hjson]

/-- Witness for C7: with a codec whose base64 decoder rejects the input,
the first failing step's error kind, `Base64Decode`, is returned. -/
theorem decrypt_iris_share_error_order_witness :
    decrypt_iris_share
        ⟨fun _ => none, id, fun _ _ => none, fun p _ => p, fun _ => none,
          fun _ => none, fun _ => []⟩
        ⟨0, none⟩ [1, 2, 3] = .error .base64DecodeError :=
  (decrypt_iris_share_error_order _ _ _).1 rfl

/-- Claim C8.  For every `IrisCodesJSON` record: serializing it, sealing
the bytes with the recipient's current public key (or the previous one),
base64-encoding, and calling `decrypt_iris_share` with the corresponding
key pair returns exactly the original record; in the previous-key case
decryption succeeds because the current key is tried first and the
previous key on its failure.  The hypotheses are the standard codec
round-trip laws of base64, the sealed box, UTF-8 and JSON. -/
theorem decrypt_iris_share_roundtrip (cs : IngestionCodecs)
    (kp : SharesEncryptionKeyPairs) (r : IrisCodesJSON)
    (pkCur pkPrev skPrev : Nat)
    (hkp : kp.previousSecret = some skPrev)
    (hb64 : ∀ x, cs.b64decode (cs.b64encode x) = some x)
    (hopenCur : cs.boxOpen (cs.sealBox (cs.jsonSerialize r) pkCur)
        kp.currentSecret = some (cs.jsonSerialize r))
    (hopenPrevWithCur : cs.boxOpen (cs.sealBox (cs.jsonSerialize r) pkPrev)
        kp.currentSecret = none)
    (hopenPrev : cs.boxOpen (cs.sealBox (cs.jsonSerialize r) pkPrev) skPrev
        = some (cs.jsonSerialize r))
    (hutf : cs.utf8decode (cs.jsonSerialize r) = some (cs.jsonSerialize r))
    (hjson : cs.jsonParse (cs.jsonSerialize r) = some r) :
    decrypt_iris_share cs kp
        (cs.b64encode (cs.sealBox (cs.jsonSerialize r) pkCur)) = .ok r ∧
      decrypt_iris_share cs kp
        (cs.b64encode (cs.sealBox (cs.jsonSerialize r) pkPrev)) = .ok r := by
  constructor
  · simp [decrypt_iris_share, openWithFallback, hb64, hopenCur, hutf, hjson]
  · simp [decrypt_iris_share, openWithFallback, hb64, hopenPrevWithCur, hkp,
      hopenPrev, hutf, hjson]

/-- Witness for C8 with a concrete sealed-box model (the key tags the
box; opening succeeds only under the matching secret key): the record
round-trips through both the current key (1) and the previous key (2). -/
theorem decrypt_iris_share_roundtrip_witness :
    decrypt_iris_share
        ⟨some, id,
          fun c k => match c with
            | [] => none
            | kk :: p => if kk = k then some p else none,
          fun p k => k :: p, some, fun _ => some ⟨[1], [2], [3], [4], [5], [6]⟩,
          fun _ => []⟩
        ⟨1, some 2⟩
        (([] : List Nat) |> (fun p => (1 : Nat) :: p) |> id) =
        .ok ⟨[1], [2], [3], [4], [5], [6]⟩ ∧
      decrypt_iris_share
        ⟨some, id,
          fun c k => match c with
            | [] => none
            | kk :: p => if kk = k then some p else none,
          fun p k => k :: p, some, fun _ => some ⟨[1], [2], [3], [4], [5], [6]⟩,
          fun _ => []⟩
        ⟨1, some 2⟩
        (([] : List Nat) |> (fun p => (2 : Nat) :: p) |> id) =
        .ok ⟨[1], [2], [3], [4], [5], [6]⟩ :=
  decrypt_iris_share_roundtrip
    ⟨some, id,
      fun c k => match c with
        | [] => none
        | kk :: p => if kk = k then some p else none,
      fun p k => k :: p, some, fun _ => some ⟨[1], [2], [3], [4], [5], [6]⟩,
      fun _ => []⟩
    ⟨1, some 2⟩ ⟨[1], [2], [3], [4], [5], [6]⟩ 1 2 2 rfl (fun _ => rfl)
    (by decide) (by decide) (by decide) rfl rfl
